import Mathlib

/-!
Verification development for `ProjectSummarizeTree.py`, a program that prints a
directory tree and annotates each file with a summary obtained from an external
summarization service, skipping entries that match glob ignore patterns.

The program's own code (`load_ignore_patterns`, `summarize_file`, `print_tree`)
is embedded directly.  Library functions it calls (`fnmatch.fnmatch`,
`textwrap.fill`, `sorted`, UTF-8 decoding of `open(..., encoding='utf-8')`)
are embedded following their documented CPython semantics.  The filesystem and
the remote summarizer are modelled as explicit data (`FSNode`) and an explicit
function argument (`summ : String → Except String String`); `print` is modelled
by returning the list of printed lines, and an uncaught exception by the
`Option String` component of the result.
-/

namespace PST

/-! ## Model of `fnmatch.fnmatch` (CPython, POSIX `os.path.normcase` = identity)

`fnmatch.translate` turns a pattern into a regex: `*` matches any run of
characters, `?` any single character, `[seq]` a character class (with `!`
negation, a literal `]` first, and `a-b` ranges), an unterminated `[` is a
literal `[`.  There is no path-separator special-casing and, on POSIX, no case
normalization.  We embed this as a direct recursive matcher.  The fuel argument
is `pattern length + string length + 1`, which bounds the recursion depth since
every call strictly decreases `|pattern| + |string|`. -/

/-- Scan the body of a character class after the optional leading `!` and the
optional leading literal `]`: return the class characters and the remaining
pattern, or `none` if no closing `]` exists. -/
def scanRest : List Char → Option (List Char × List Char)
  | [] => none
  | ']' :: rest => some ([], rest)
  | c :: rest => (scanRest rest).map (fun pr => (c :: pr.1, pr.2))

/-- Scan a class body whose first character may be a literal `]`. -/
def scanFirst : List Char → Option (List Char × List Char)
  | ']' :: rest => (scanRest rest).map (fun pr => (']' :: pr.1, pr.2))
  | l => scanRest l

/-- Scan what follows `[`: detect negation (`!`), then the class body.
Returns `(negated, class characters, remaining pattern)`. -/
def scanClass : List Char → Option (Bool × List Char × List Char)
  | '!' :: rest => (scanFirst rest).map (fun pr => (true, pr.1, pr.2))
  | l => (scanFirst l).map (fun pr => (false, pr.1, pr.2))

/-- Does character `c` belong to the class body?  `a-b` is a range (empty when
`a > b`, as in CPython), a `-` that is not between two characters is literal. -/
def matchClass : List Char → Char → Bool
  | a :: '-' :: b :: rest, c =>
    (decide (a ≤ c) && decide (c ≤ b)) || matchClass rest c
  | a :: rest, c => (a == c) || matchClass rest c
  | [], _ => false

/-- The glob matcher: `globMatch fuel pattern name`.  Matches the whole name
(the regex produced by `fnmatch.translate` is anchored with `\Z`). -/
def globMatch : Nat → List Char → List Char → Bool
  | 0, _, _ => false
  | _ + 1, [], s => s.isEmpty
  | f + 1, '*' :: ps, s =>
    globMatch f ps s ||
      (match s with
       | [] => false
       | _ :: cs => globMatch f ('*' :: ps) cs)
  | f + 1, '?' :: ps, s =>
    (match s with
     | [] => false
     | _ :: cs => globMatch f ps cs)
  | f + 1, '[' :: ps, s =>
    (match scanClass ps with
     | some t =>
       (match s with
        | [] => false
        | d :: cs => (t.1 != matchClass t.2.1 d) && globMatch f t.2.2 cs)
     | none =>
       (match s with
        | [] => false
        | d :: cs => ('[' == d) && globMatch f ps cs))
  | f + 1, c :: ps, s =>
    (match s with
     | [] => false
     | d :: cs => (c == d) && globMatch f ps cs)

/-- Model of `fnmatch.fnmatch(name, pat)` on a POSIX platform (where
`os.path.normcase` is the identity, so matching is case-sensitive). -/
def fnmatch (name pat : String) : Bool :=
  globMatch (pat.data.length + name.data.length + 1) pat.data name.data

/-! ## Model of `textwrap.fill(text, width=60)` (CPython defaults)

`textwrap.fill` is `"\n".join(textwrap.wrap(text))`.  With default options a
`TextWrapper` (`expand_tabs=True`, `replace_whitespace=True`,
`drop_whitespace=True`, `break_long_words=True`, `break_on_hyphens=True`,
no indents, `max_lines=None`):
1. munges whitespace: expands tabs (tabsize 8), then replaces each of the six
   whitespace characters `\t\n\x0b\x0c\r ` by a space;
2. splits the text into chunks: runs of whitespace, and words, where a word is
   further split right after a hyphen in a compound word
   (`wordsep_re`: the hyphen must follow two letters or letter-hyphen-letter,
   and be followed by letter, optional hyphen, letter);
3. greedily packs chunks into lines of at most `width` columns, dropping
   whitespace chunks at line boundaries and chopping a chunk that is longer
   than the space remaining on an otherwise-empty line (preferring to chop
   just after a hyphen).
The model works on `List Char` and produces the list of lines that
`fill(...).split("\n")` yields.  Letters in the hyphen rule are modelled by
`Char.isAlpha` plus `_` (the regex classes are Unicode; no theorem below
exercises non-ASCII letters or the em-dash clause of `wordsep_re`). -/

/-- The six characters `textwrap` replaces by a space (`\t\n\x0b\x0c\r `). -/
def isPyWS (c : Char) : Bool :=
  c == ' ' || c == '\t' || c == '\n' || c == '\x0b' || c == '\x0c' || c == '\r'

/-- Model of `str.expandtabs(8)`: tabs advance to the next multiple of 8;
the column resets after a newline or carriage return. -/
def expandTabs : Nat → List Char → List Char
  | _, [] => []
  | col, '\t' :: cs => List.replicate (8 - col % 8) ' ' ++ expandTabs (col + (8 - col % 8)) cs
  | _, '\n' :: cs => '\n' :: expandTabs 0 cs
  | _, '\r' :: cs => '\r' :: expandTabs 0 cs
  | col, c :: cs => c :: expandTabs (col + 1) cs

/-- `TextWrapper._munge_whitespace`: expand tabs, then map whitespace to `' '`. -/
def munge (cs : List Char) : List Char :=
  (expandTabs 0 cs).map (fun c => if isPyWS c then ' ' else c)

/-- The `letter` class of `textwrap.wordsep_re` (`[^\d\W]`): a word character
that is not a digit, restricted here to ASCII letters and underscore. -/
def isWordLetter (c : Char) : Bool := c.isAlpha || c == '_'

/-- The `\w` class, restricted to ASCII. -/
def isWordChar (c : Char) : Bool := c.isAlphanum || c == '_'

/-- The `word_punct` class of `textwrap.wordsep_re` (`[\w!"\'&.,?]`). -/
def isWordPunct (c : Char) : Bool :=
  isWordChar c || c == '!' || c == '"' || c == '\'' || c == '&' ||
    c == '.' || c == ',' || c == '?'

/-- Lookbehind of the compound-word hyphen rule, applied to the characters
before the hyphen in reverse order: `letter letter -` or `letter - letter -`. -/
def hyphenLookbehind : List Char → Bool
  | a :: b :: rest =>
    isWordLetter a &&
      (isWordLetter b ||
        (b == '-' && (match rest with | c :: _ => isWordLetter c | [] => false)))
  | _ => false

/-- Lookahead of the compound-word hyphen rule, applied to the characters
after the hyphen: `letter -? letter`. -/
def hyphenLookahead : List Char → Bool
  | x :: y :: more =>
    isWordLetter x &&
      (isWordLetter y ||
        (y == '-' && (match more with | z :: _ => isWordLetter z | [] => false)))
  | _ => false

/-- Split one word chunk at the boundaries `wordsep_re` recognizes: right
after a compound-word hyphen, and around a run of two or more hyphens that
follows a `word_punct` character and is followed by a `\w` character (the
em-dash clause).  `acc` holds the characters of the current piece in reverse
order; the fuel (at least the word's length plus one) bounds the iterations,
each of which consumes at least one character. -/
def splitWordGo : Nat → List Char → List Char → List (List Char)
  | _, acc, [] => [acc.reverse]
  | 0, acc, l => [acc.reverse ++ l]
  | fuel + 1, acc, '-' :: rest =>
    match rest with
    | '-' :: _ =>
      let run := '-' :: rest.takeWhile (fun c => c == '-')
      let after := rest.dropWhile (fun c => c == '-')
      if (match acc with | a :: _ => isWordPunct a | [] => false) &&
         (match after with | c :: _ => isWordChar c | [] => false) then
        acc.reverse :: run :: splitWordGo fuel [] after
      else splitWordGo fuel (run.reverse ++ acc) after
    | _ =>
      if hyphenLookbehind acc && hyphenLookahead rest then
        (acc.reverse ++ ['-']) :: splitWordGo fuel [] rest
      else splitWordGo fuel ('-' :: acc) rest
  | fuel + 1, acc, c :: rest => splitWordGo fuel (c :: acc) rest

/-- Split a munged text into maximal runs of spaces and of non-spaces. -/
def splitRuns : List Char → List (List Char)
  | [] => []
  | c :: cs =>
    match splitRuns cs with
    | [] => [[c]]
    | [] :: rs => [c] :: [] :: rs
    | (d :: ds) :: rs =>
      if (c == ' ') == (d == ' ') then (c :: d :: ds) :: rs
      else [c] :: (d :: ds) :: rs

/-- `TextWrapper._split` on munged text: whitespace runs are chunks, words are
split after compound-word hyphens. -/
def splitChunks (text : List Char) : List (List Char) :=
  ((splitRuns text).map
    (fun r =>
      match r with
      | ' ' :: _ => [r]
      | w => splitWordGo (w.length + 1) [] w)).flatten

/-- Total length of a list of chunks. -/
def sumLen (cs : List (List Char)) : Nat := (cs.map List.length).sum

/-- A chunk `c` with `c.strip() == ''` (after munging these are space runs). -/
def isBlank (cs : List Char) : Bool := cs.all isPyWS

/-- The inner greedy loop of `_wrap_chunks`: pop chunks onto the current line
while they fit within `w` columns.  Returns (taken, remaining). -/
def greedyTake (w : Nat) : Nat → List (List Char) → List (List Char) × List (List Char)
  | _, [] => ([], [])
  | curLen, c :: cs =>
    if curLen + c.length ≤ w then
      let r := greedyTake w (curLen + c.length) cs
      (c :: r.1, r.2)
    else ([], c :: cs)

/-- Index of the last `-` in a list, if any (model of `str.rfind('-')`). -/
def lastHyphen : List Char → Option Nat
  | [] => none
  | c :: cs =>
    match lastHyphen cs with
    | some i => some (i + 1)
    | none => if c == '-' then some 0 else none

/-- Where `_handle_long_word` chops the head chunk: at the space left on the
line, or just after the last hyphen before that point when the chunk is longer
than the space left, the hyphen is not at position 0 and something before it
is not a hyphen (`break_on_hyphens` handling inside `_handle_long_word`). -/
def longWordEnd (spaceLeft : Nat) (chunk : List Char) : Nat :=
  if spaceLeft < chunk.length then
    match lastHyphen (chunk.take spaceLeft) with
    | some h => if 0 < h && (chunk.take h).any (fun c => c != '-') then h + 1 else spaceLeft
    | none => spaceLeft
  else spaceLeft

/-- `TextWrapper._handle_long_word` with `break_long_words=True` and
`break_on_hyphens=True`: chop the head chunk at `longWordEnd`.  Returns the
piece moved onto the current line and the new chunk list. -/
def handleLongWord (w curLen : Nat) (chunk : List Char) (rest : List (List Char)) :
    List (List Char) × List (List Char) :=
  let spaceLeft := if w < 1 then 1 else w - curLen
  ([chunk.take (longWordEnd spaceLeft chunk)],
   chunk.drop (longWordEnd spaceLeft chunk) :: rest)

/-- Drop a trailing whitespace chunk from the current line
(`drop_whitespace` handling at the end of a line). -/
def dropLastBlank (cs : List (List Char)) : List (List Char) :=
  match cs.getLast? with
  | some l => if isBlank l then cs.dropLast else cs
  | none => cs

/-- The outer loop of `_wrap_chunks`.  `hasLines` records whether a line has
already been emitted (a leading whitespace chunk is dropped only then).  The
fuel bounds the number of iterations; each iteration on a nonempty chunk list
strictly decreases `sumLen + length`, so `wrapFuel` below always suffices. -/
def wrapGo (w : Nat) : Nat → Bool → List (List Char) → List (List Char)
  | 0, _, _ => []
  | _ + 1, _, [] => []
  | fuel + 1, hasLines, c0 :: crest =>
    let chunks1 := if hasLines && isBlank c0 then crest else c0 :: crest
    let g := greedyTake w 0 chunks1
    let hl :=
      match g.2 with
      | [] => g
      | c :: rs =>
        if w < c.length then
          let h := handleLongWord w (sumLen g.1) c rs
          (g.1 ++ h.1, h.2)
        else g
    let cur3 := dropLastBlank hl.1
    (if cur3.isEmpty then [] else [cur3.flatten]) ++
      wrapGo w fuel (hasLines || !cur3.isEmpty) hl.2

/-- Sufficient fuel for `wrapGo`. -/
def wrapFuel (chunks : List (List Char)) : Nat := sumLen chunks + chunks.length + 1

/-- Model of `textwrap.wrap(text, width=w)` (defaults): the list of lines. -/
def wrapLines (w : Nat) (text : List Char) : List (List Char) :=
  wrapGo w (wrapFuel (splitChunks (munge text))) false (splitChunks (munge text))

/-- Model of `textwrap.fill(text, width=w).split("\n")`: `fill` joins the
wrapped lines with `\n` (no wrapped line contains `\n`), and splitting the
empty string yields `[""]`. -/
def fill_lines (w : Nat) (text : List Char) : List (List Char) :=
  match wrapLines w text with
  | [] => [[]]
  | ls => ls

/-! ## Model of reading a file opened with `open(path, 'r', encoding='utf-8')`

`summarize_file` does `f.read(max_chars)` on a file opened in UTF-8 text mode
with strict error handling.  We model the file's on-disk content as raw bytes
and the read as strict UTF-8 decoding of up to `max_chars` characters:
an invalid or truncated sequence within the decoded region raises
`UnicodeDecodeError` (the exact CPython message text, with byte positions, is
not reproduced; only that an error is raised and caught). -/

/-- Is the byte a UTF-8 continuation byte (`0x80`–`0xBF`)? -/
def isCont (b : Nat) : Bool := 128 ≤ b && b ≤ 191

/-- The diagnostic a failed strict UTF-8 decode produces. -/
def decodeErr : String := "UnicodeDecodeError"

/-- Decode one character of strict UTF-8 from leading byte `b` and the
remaining bytes, rejecting overlong forms, surrogates and values above
`U+10FFFF` exactly as CPython's strict `utf-8` codec does. -/
def decodeOne (b : Nat) (bs : List Nat) : Except String (Char × List Nat) :=
  if b ≤ 127 then .ok (Char.ofNat b, bs)
  else if 194 ≤ b && b ≤ 223 then
    match bs with
    | b1 :: r =>
      if isCont b1 then .ok (Char.ofNat ((b - 192) * 64 + (b1 - 128)), r)
      else .error decodeErr
    | [] => .error decodeErr
  else if 224 ≤ b && b ≤ 239 then
    match bs with
    | b1 :: b2 :: r =>
      let lowOk :=
        if b == 224 then 160 ≤ b1 && b1 ≤ 191
        else if b == 237 then 128 ≤ b1 && b1 ≤ 159
        else isCont b1
      if lowOk && isCont b2 then
        .ok (Char.ofNat ((b - 224) * 4096 + (b1 - 128) * 64 + (b2 - 128)), r)
      else .error decodeErr
    | _ => .error decodeErr
  else if 240 ≤ b && b ≤ 244 then
    match bs with
    | b1 :: b2 :: b3 :: r =>
      let lowOk :=
        if b == 240 then 144 ≤ b1 && b1 ≤ 191
        else if b == 244 then 128 ≤ b1 && b1 ≤ 143
        else isCont b1
      if lowOk && isCont b2 && isCont b3 then
        .ok (Char.ofNat ((b - 240) * 262144 + (b1 - 128) * 4096 + (b2 - 128) * 64 + (b3 - 128)), r)
      else .error decodeErr
    | _ => .error decodeErr
  else .error decodeErr

/-- Decode up to `n` characters of strict UTF-8 from `bytes`
(model of `f.read(n)` on a UTF-8 text-mode file). -/
def readPrefixChars : Nat → List Nat → Except String (List Char)
  | _, [] => .ok []
  | 0, _ => .ok []
  | n + 1, b :: bs =>
    match decodeOne b bs with
    | .error e => .error e
    | .ok cr =>
      match readPrefixChars n cr.2 with
      | .error e => .error e
      | .ok cs => .ok (cr.1 :: cs)

/-! ## The embedded program

The filesystem seen by one run is a tree.  A file node carries the outcome of
`open` + raw bytes (an `OSError` on open, e.g. permission denied, is an
`Except.error`); a directory node carries the outcome its `os.listdir` call
will have: a listing (an association list of child name to child node, in the
order `listdir` returns, with the names unique as on a real filesystem),
a `PermissionError`, or any other `OSError` (carried as its message). -/

inductive FSNode where
  | file (openResult : Except String (List Nat))
  | dirOk (entries : List (String × FSNode))
  | dirPermissionError
  | dirOtherError (e : String)

/-- Model of `open(path, 'r', encoding='utf-8')` followed by `f.read(5000)`
(the `max_chars=5000` default of `summarize_file`). -/
def readFile (openResult : Except String (List Nat)) : Except String String :=
  match openResult with
  | .error e => .error e
  | .ok bytes =>
    match readPrefixChars 5000 bytes with
    | .error e => .error e
    | .ok cs => .ok (String.mk cs)

/-- The prompt `summarize_file` builds around the file content. -/
def promptFor (content : String) : String :=
  "次のファイルの内容を短く要約してください（日本語で、1〜2文程度）:\n```\n" ++ (content ++ "\n```")

/-- Model of `str.strip()` (the six ASCII whitespace characters; other Unicode
whitespace is not modelled). -/
def pyStrip (cs : List Char) : List Char :=
  ((cs.dropWhile isPyWS).reverse.dropWhile isPyWS).reverse

/-- Embedding of `summarize_file(path, max_chars=5000)`.  The remote call
`client.responses.create(...)` / `.output_text` is the external collaborator,
passed in as `summ`; `Except.error` models any exception it raises.  Both
`try/except` blocks of the source are the two `match`es on an error. -/
def summarize_file (summ : String → Except String String)
    (openResult : Except String (List Nat)) : String :=
  match readFile openResult with
  | .error e => "[読み取りエラー: " ++ e ++ "]"
  | .ok content =>
    match summ (promptFor content) with
    | .error e => "[要約エラー: " ++ e ++ "]"
    | .ok out => String.mk (pyStrip out.data)

/-- Model of `os.path.join` on POSIX. -/
def osJoin (p n : String) : String := p ++ ("/" ++ n)

/-- The branch glyph: `"└── "` for the last entry, `"├── "` otherwise. -/
def branchGlyph (isLast : Bool) : String := if isLast then "└── " else "├── "

/-- The prefix contribution a level passes to its recursive call:
`"    "` under a terminal branch, `"│   "` otherwise. -/
def childIndent (isLast : Bool) : String := if isLast then "    " else "│   "

/-- Lexicographic (code-point) non-strict order on character lists: exactly
how Python's `<=` compares `str` values. -/
def charListLe : List Char → List Char → Bool
  | [], _ => true
  | _ :: _, [] => false
  | a :: as, b :: bs =>
    decide (a.toNat < b.toNat) || (a.toNat == b.toNat && charListLe as bs)

/-- Lexicographic (code-point) strict order on character lists. -/
def charListLt : List Char → List Char → Bool
  | _, [] => false
  | [], _ :: _ => true
  | a :: as, b :: bs =>
    decide (a.toNat < b.toNat) || (a.toNat == b.toNat && charListLt as bs)

/-- Name-based ordering of directory entries, as `sorted(os.listdir(path))`
sorts the listed names. -/
def nameLe (a b : String × FSNode) : Prop := charListLe a.1.data b.1.data = true

instance : DecidableRel nameLe :=
  fun a b => inferInstanceAs (Decidable (charListLe a.1.data b.1.data = true))

theorem charListLe_total : ∀ a b : List Char, charListLe a b = true ∨ charListLe b a = true := by
  intro a
  induction a with
  | nil => intro b; left; rfl
  | cons x xs ih =>
    intro b
    cases b with
    | nil => right; rfl
    | cons y ys =>
      rcases Nat.lt_trichotomy x.toNat y.toNat with h | h | h
      · left; simp [charListLe, h]
      · rcases ih ys with h2 | h2
        · left; simp [charListLe, h, h2]
        · right; simp [charListLe, h, h2]
      · right; simp [charListLe, h]

theorem charListLe_trans : ∀ a b c : List Char,
    charListLe a b = true → charListLe b c = true → charListLe a c = true := by
  intro a
  induction a with
  | nil => intro b c _ _; rfl
  | cons x xs ih =>
    intro b c hab hbc
    cases b with
    | nil => simp [charListLe] at hab
    | cons y ys =>
      cases c with
      | nil => simp [charListLe] at hbc
      | cons z zs =>
        simp only [charListLe, Bool.or_eq_true, Bool.and_eq_true, decide_eq_true_eq,
          beq_iff_eq] at hab hbc ⊢
        rcases hab with h1 | ⟨h1, h1le⟩ <;> rcases hbc with h2 | ⟨h2, h2le⟩
        · exact Or.inl (Nat.lt_trans h1 h2)
        · exact Or.inl (h2 ▸ h1)
        · exact Or.inl (h1 ▸ h2)
        · exact Or.inr ⟨h1.trans h2, ih ys zs h1le h2le⟩

instance : IsTotal (String × FSNode) nameLe := ⟨fun a b => charListLe_total a.1.data b.1.data⟩

instance : IsTrans (String × FSNode) nameLe :=
  ⟨fun _ _ _ h1 h2 => charListLe_trans _ _ _ h1 h2⟩

/-- `entries = sorted(os.listdir(path))` followed by the
`if ignore_patterns:` filter loop of `print_tree`.  `os.listdir` returns the
names; since names in a directory are unique, sorting the (name, node) pairs
by name is the same as sorting the names and resolving each against the
directory. -/
def surviving (ignore_patterns : List String) (entries : List (String × FSNode)) :
    List (String × FSNode) :=
  let sortedEntries := List.insertionSort nameLe entries
  if ignore_patterns.isEmpty then sortedEntries
  else sortedEntries.filter (fun e => !(ignore_patterns.any (fun pat => fnmatch e.1 pat)))

/-- The `for index, name in enumerate(entries)` loop pairs each entry with
`is_last = index == len(entries) - 1`. -/
def withLast (l : List (String × FSNode)) : List ((String × FSNode) × Bool) :=
  l.enum.map (fun p => (p.2, p.1 == l.length - 1))

/-- The lines printed for one file entry:
`f"{prefix}{branch}{name} - {lines[0]}"` and, for each remaining wrapped
line, `f"{prefix}{' ' * len(branch)}  {line}"`. -/
def fileRenderLines (pfx branch name summary : String) : List String :=
  let lines := fill_lines 60 summary.data
  (pfx ++ (branch ++ (name ++ (" - " ++ String.mk (lines.headD [])))))
    :: lines.tail.map
        (fun l => pfx ++ (String.mk (List.replicate branch.length ' ') ++ ("  " ++ String.mk l)))

/-- The body of `print_tree`'s `for` loop over the surviving entries.
The result is the pair (lines printed, uncaught exception if one escaped):
an exception stops the loop but the lines already printed remain.  `recur` is
the recursive `print_tree` call made for subdirectories (`os.path.isdir(full)`
distinguishes `FSNode.file` from the three directory kinds). -/
def processEntries (summ : String → Except String String)
    (recur : FSNode → String → String → List String × Option String)
    (path pfx : String) : List ((String × FSNode) × Bool) → List String × Option String
  | [] => ([], none)
  | ((name, node), isLast) :: rest =>
    let full := osJoin path name
    let branch := branchGlyph isLast
    match node with
    | .file openResult =>
      let r := processEntries summ recur path pfx rest
      (fileRenderLines pfx branch name (summarize_file summ openResult) ++ r.1, r.2)
    | _ =>
      let s := recur node full (pfx ++ childIndent isLast)
      match s.2 with
      | some e => ((pfx ++ (branch ++ (name ++ "/"))) :: s.1, some e)
      | none =>
        let r := processEntries summ recur path pfx rest
        ((pfx ++ (branch ++ (name ++ "/"))) :: (s.1 ++ r.1), r.2)

/-- Embedding of `print_tree(path, prefix, ignore_patterns)`.  The node is the
directory `path` refers to.  The result is (printed lines, uncaught
exception): a `PermissionError` from `os.listdir` prints one diagnostic and
returns; any other listing error propagates.  The fuel bounds the recursion
depth (any fuel larger than the tree's height gives the program's behaviour;
exhausted fuel yields `([], none)`). -/
def print_tree (summ : String → Except String String) (ignore_patterns : List String) :
    Nat → FSNode → String → String → List String × Option String
  | 0, _, _, _ => ([], none)
  | fuel + 1, node, path, pfx =>
    match node with
    | .file _ => ([], some ("NotADirectoryError: " ++ path))
    | .dirPermissionError => ([pfx ++ ("[アクセス権限なし: " ++ (path ++ "]"))], none)
    | .dirOtherError e => ([], some e)
    | .dirOk entries =>
      processEntries summ (print_tree summ ignore_patterns fuel) path pfx
        (withLast (surviving ignore_patterns entries))

/-! ## Auxiliary predicates for the statements -/

/-- Every `os.listdir` call in the tree either succeeds or raises
`PermissionError` (no other listing error anywhere). -/
inductive ListingsOkP : FSNode → Prop where
  | file : ∀ o, ListingsOkP (.file o)
  | perm : ListingsOkP .dirPermissionError
  | dir : ∀ entries, (∀ p ∈ entries, ListingsOkP p.2) → ListingsOkP (.dirOk entries)

/-- Is the node something `os.path.isdir` reports as a directory? -/
def isDirNode : FSNode → Bool
  | .file _ => false
  | _ => true

/-- Does the first list occur at the beginning of the second? -/
def listStarts : List Char → List Char → Bool
  | [], _ => true
  | _ :: _, [] => false
  | a :: as, b :: bs => a == b && listStarts as bs

/-- Number of leading spaces of a line. -/
def countLeadingSpaces : List Char → Nat
  | ' ' :: cs => countLeadingSpaces cs + 1
  | _ => 0

/-! ## Helper lemmas -/

theorem listStarts_self_append : ∀ a b : List Char, listStarts a (a ++ b) = true := by
  intro a b
  induction a with
  | nil => rfl
  | cons x xs ih => simp [listStarts, ih]

theorem listStarts_of_append : ∀ a c l : List Char,
    listStarts (a ++ c) l = true → listStarts a l = true := by
  intro a
  induction a with
  | nil => intro c l _; rfl
  | cons x xs ih =>
    intro c l h
    cases l with
    | nil => simp [listStarts] at h
    | cons y ys =>
      simp only [List.cons_append, listStarts, Bool.and_eq_true] at h ⊢
      exact ⟨h.1, ih c ys h.2⟩

theorem data_append (a b : String) : (a ++ b).data = a.data ++ b.data := rfl

theorem fileRenderLines_start (pfx branch name summary : String) :
    ∀ l ∈ fileRenderLines pfx branch name summary, listStarts pfx.data l.data = true := by
  intro l hl
  simp only [fileRenderLines, List.mem_cons, List.mem_map] at hl
  rcases hl with rfl | ⟨w, _, rfl⟩ <;>
    { rw [data_append]; exact listStarts_self_append _ _ }

theorem processEntries_extend (summ : String → Except String String)
    (recur : FSNode → String → String → List String × Option String)
    (path pfx : String)
    (H : ∀ nb full q2, ∀ l ∈ (recur nb full q2).1, listStarts q2.data l.data = true) :
    ∀ pairs, ∀ l ∈ (processEntries summ recur path pfx pairs).1,
      listStarts pfx.data l.data = true := by
  intro pairs
  induction pairs with
  | nil => intro l hl; simp [processEntries] at hl
  | cons hd rest ih =>
    obtain ⟨⟨name, node⟩, isLast⟩ := hd
    intro l hl
    cases node with
    | file o =>
      simp only [processEntries, List.mem_append] at hl
      rcases hl with hl | hl
      · exact fileRenderLines_start _ _ _ _ l hl
      · exact ih l hl
    | dirOk entries =>
      simp only [processEntries] at hl
      rcases hs : (recur (.dirOk entries) (osJoin path name) (pfx ++ childIndent isLast)).2 with
        _ | e <;> rw [hs] at hl <;> simp only [List.mem_cons, List.mem_append] at hl
      · rcases hl with rfl | hl | hl
        · rw [data_append]; exact listStarts_self_append _ _
        · have := H _ _ _ l hl
          rw [data_append] at this
          exact listStarts_of_append _ _ _ this
        · exact ih l hl
      · rcases hl with rfl | hl
        · rw [data_append]; exact listStarts_self_append _ _
        · have := H _ _ _ l hl
          rw [data_append] at this
          exact listStarts_of_append _ _ _ this
    | dirPermissionError =>
      simp only [processEntries] at hl
      rcases hs : (recur .dirPermissionError (osJoin path name) (pfx ++ childIndent isLast)).2 with
        _ | e <;> rw [hs] at hl <;> simp only [List.mem_cons, List.mem_append] at hl
      · rcases hl with rfl | hl | hl
        · rw [data_append]; exact listStarts_self_append _ _
        · have := H _ _ _ l hl
          rw [data_append] at this
          exact listStarts_of_append _ _ _ this
        · exact ih l hl
      · rcases hl with rfl | hl
        · rw [data_append]; exact listStarts_self_append _ _
        · have := H _ _ _ l hl
          rw [data_append] at this
          exact listStarts_of_append _ _ _ this
    | dirOtherError e0 =>
      simp only [processEntries] at hl
      rcases hs : (recur (.dirOtherError e0) (osJoin path name) (pfx ++ childIndent isLast)).2 with
        _ | e <;> rw [hs] at hl <;> simp only [List.mem_cons, List.mem_append] at hl
      · rcases hl with rfl | hl | hl
        · rw [data_append]; exact listStarts_self_append _ _
        · have := H _ _ _ l hl
          rw [data_append] at this
          exact listStarts_of_append _ _ _ this
        · exact ih l hl
      · rcases hl with rfl | hl
        · rw [data_append]; exact listStarts_self_append _ _
        · have := H _ _ _ l hl
          rw [data_append] at this
          exact listStarts_of_append _ _ _ this

theorem print_tree_extend (summ : String → Except String String) (ign : List String) :
    ∀ fuel node path pfx, ∀ l ∈ (print_tree summ ign fuel node path pfx).1,
      listStarts pfx.data l.data = true := by
  intro fuel
  induction fuel with
  | zero => intro node path pfx l hl; simp [print_tree] at hl
  | succ fuel ih =>
    intro node path pfx l hl
    cases node with
    | file o => simp [print_tree] at hl
    | dirPermissionError =>
      simp only [print_tree, List.mem_singleton] at hl
      subst hl
      rw [data_append]
      exact listStarts_self_append _ _
    | dirOtherError e => simp [print_tree] at hl
    | dirOk entries =>
      exact processEntries_extend summ _ path pfx (fun nb full q2 => ih nb full q2) _ l hl

theorem mem_of_mem_surviving {ign : List String} {entries : List (String × FSNode)}
    {x : String × FSNode} (hx : x ∈ surviving ign entries) : x ∈ entries := by
  unfold surviving at hx
  split at hx
  · exact (List.perm_insertionSort nameLe entries).subset hx
  · exact (List.perm_insertionSort nameLe entries).subset (List.mem_filter.mp hx).1

theorem mem_of_mem_withLast {l : List (String × FSNode)} {p : (String × FSNode) × Bool}
    (hp : p ∈ withLast l) : p.1 ∈ l := by
  unfold withLast at hp
  rcases List.mem_map.mp hp with ⟨q, hq, rfl⟩
  rw [List.enum_eq_zip_range] at hq
  exact (List.of_mem_zip hq).2

theorem processEntries_no_raise (summ : String → Except String String)
    (recur : FSNode → String → String → List String × Option String)
    (path pfx : String) :
    ∀ pairs, (∀ p ∈ pairs, ListingsOkP p.1.2) →
      (∀ nb full q2, ListingsOkP nb → isDirNode nb = true → (recur nb full q2).2 = none) →
      (processEntries summ recur path pfx pairs).2 = none := by
  intro pairs
  induction pairs with
  | nil => intro _ _; rfl
  | cons hd rest ih =>
    obtain ⟨⟨name, node⟩, isLast⟩ := hd
    intro hmem H
    have hnode : ListingsOkP node := hmem _ (List.mem_cons_self _ _)
    have hrest : ∀ p ∈ rest, ListingsOkP p.1.2 :=
      fun p hp => hmem p (List.mem_cons_of_mem _ hp)
    cases node with
    | file o => simpa [processEntries] using ih hrest H
    | dirOk entries =>
      have hs := H (.dirOk entries) (osJoin path name) (pfx ++ childIndent isLast) hnode rfl
      simp only [processEntries, hs]
      exact ih hrest H
    | dirPermissionError =>
      have hs := H .dirPermissionError (osJoin path name) (pfx ++ childIndent isLast) hnode rfl
      simp only [processEntries, hs]
      exact ih hrest H
    | dirOtherError e => cases hnode

theorem print_tree_no_raise (summ : String → Except String String) (ign : List String) :
    ∀ fuel node path pfx, ListingsOkP node → isDirNode node = true →
      (print_tree summ ign fuel node path pfx).2 = none := by
  intro fuel
  induction fuel with
  | zero => intro node path pfx _ _; rfl
  | succ fuel ih =>
    intro node path pfx hok hdir
    cases node with
    | file o => simp [isDirNode] at hdir
    | dirPermissionError => rfl
    | dirOtherError e => cases hok
    | dirOk entries =>
      cases hok with
      | dir _ hall =>
        exact processEntries_no_raise summ _ path pfx _
          (fun p hp => hall _ (mem_of_mem_surviving (mem_of_mem_withLast hp)))
          (fun nb full q2 h1 h2 => ih nb full q2 h1 h2)

theorem string_data_inj : ∀ s t : String, s.data = t.data → s = t := by
  intro s t h
  cases s; cases t; cases h; rfl

theorem charListLe_ne_lt : ∀ a b : List Char,
    charListLe a b = true → a ≠ b → charListLt a b = true := by
  intro a
  induction a with
  | nil =>
    intro b _ hne
    cases b with
    | nil => exact absurd rfl hne
    | cons y ys => rfl
  | cons x xs ih =>
    intro b hle hne
    cases b with
    | nil => simp [charListLe] at hle
    | cons y ys =>
      simp only [charListLe, charListLt, Bool.or_eq_true, Bool.and_eq_true,
        decide_eq_true_eq, beq_iff_eq] at hle ⊢
      rcases hle with h | ⟨h, h2⟩
      · exact Or.inl h
      · refine Or.inr ⟨h, ih ys h2 ?_⟩
        intro hEq
        apply hne
        have hx : x = y := Char.ext (UInt32.ext h)
        rw [hx, hEq]

theorem filter_orderedInsert (p : String × FSNode → Bool) (a : String × FSNode)
    (ha : p a = false) :
    ∀ l, List.filter p (List.orderedInsert nameLe a l) = List.filter p l := by
  intro l
  induction l with
  | nil => simp [List.orderedInsert, List.filter, ha]
  | cons b l ih =>
    simp only [List.orderedInsert]
    split
    · simp [List.filter, ha]
    · simp [List.filter_cons, ih]

theorem withLast_flags (l : List (String × FSNode)) :
    (withLast l).map Prod.snd = (List.range l.length).map (fun j => j == l.length - 1) := by
  unfold withLast
  rw [List.map_map]
  have h : (Prod.snd ∘ fun p : Nat × (String × FSNode) => (p.2, p.1 == l.length - 1))
      = (fun j => j == l.length - 1) ∘ Prod.fst := rfl
  rw [h, ← List.map_map, List.enum_map_fst]

theorem globMatch_star : ∀ f (l : List Char), l.length + 2 ≤ f → globMatch f ['*'] l = true := by
  intro f l
  induction l generalizing f with
  | nil =>
    intro hf
    match f, hf with
    | g + 2, _ => simp [globMatch]
  | cons c cs ih =>
    intro hf
    match f, hf with
    | g + 1, hf =>
      have : cs.length + 2 ≤ g := by simpa [Nat.succ_le_succ_iff] using hf
      simp [globMatch, ih g this]

theorem globMatch_question : ∀ f (l : List Char),
    l.length + 2 ≤ f → globMatch f ['?'] l = (l.length == 1) := by
  intro f l hf
  match f, hf with
  | g + 1, hf =>
    cases l with
    | nil => simp [globMatch]
    | cons c cs =>
      cases cs with
      | nil =>
        match g, hf with
        | k + 1, _ => simp [globMatch]
      | cons d ds =>
        match g, hf with
        | k + 1, _ => simp [globMatch, List.isEmpty]

/-! Bounds on the wrapped lines. -/

theorem sumLen_nil : sumLen [] = 0 := rfl

theorem sumLen_cons (c : List Char) (cs : List (List Char)) :
    sumLen (c :: cs) = c.length + sumLen cs := by
  simp [sumLen]

theorem sumLen_append (a b : List (List Char)) : sumLen (a ++ b) = sumLen a + sumLen b := by
  simp [sumLen]

theorem greedyTake_le (w : Nat) : ∀ (cs : List (List Char)) (curLen : Nat), curLen ≤ w →
    curLen + sumLen (greedyTake w curLen cs).1 ≤ w := by
  intro cs
  induction cs with
  | nil => intro curLen h; simpa [greedyTake, sumLen_nil] using h
  | cons c cs ih =>
    intro curLen h
    simp only [greedyTake]
    split
    · have := ih (curLen + c.length) (by omega)
      simp only [sumLen_cons]
      omega
    · simpa [sumLen_nil] using h

theorem lastHyphen_lt : ∀ (l : List Char) (h : Nat), lastHyphen l = some h → h < l.length := by
  intro l
  induction l with
  | nil => intro h hl; simp [lastHyphen] at hl
  | cons c cs ih =>
    intro h hl
    unfold lastHyphen at hl
    rcases he : lastHyphen cs with _ | i <;> rw [he] at hl <;> dsimp only at hl
    · split at hl
      · simp only [Option.some.injEq] at hl
        subst hl
        simp
      · simp at hl
    · simp only [Option.some.injEq] at hl
      subst hl
      have := ih i he
      simp only [List.length_cons]
      omega

theorem longWordEnd_le : ∀ (s : Nat) (chunk : List Char), longWordEnd s chunk ≤ s := by
  intro s chunk
  unfold longWordEnd
  split
  · rcases hh : lastHyphen (chunk.take s) with _ | hIdx <;> dsimp only
    · exact le_refl _
    · have hlt := lastHyphen_lt _ _ hh
      rw [List.length_take] at hlt
      split
      · omega
      · exact le_refl _
  · exact le_refl _

theorem handleLongWord_le (w curLen : Nat) (chunk : List Char) (rest : List (List Char))
    (hc : curLen ≤ w) (hw : 1 ≤ w) :
    curLen + sumLen (handleLongWord w curLen chunk rest).1 ≤ w := by
  unfold handleLongWord
  have hsp : (if w < 1 then 1 else w - curLen) = w - curLen := by
    have h1 : ¬ w < 1 := by omega
    simp [h1]
  rw [hsp]
  have h2 := longWordEnd_le (w - curLen) chunk
  have h3 : (chunk.take (longWordEnd (w - curLen) chunk)).length ≤ longWordEnd (w - curLen) chunk := by
    rw [List.length_take]; omega
  simp only [sumLen_cons, sumLen_nil]
  omega

theorem sumLen_dropLast : ∀ cs : List (List Char), sumLen cs.dropLast ≤ sumLen cs := by
  intro cs
  induction cs with
  | nil => simp
  | cons c cs ih =>
    cases cs with
    | nil => simp [sumLen]
    | cons d ds =>
      rw [List.dropLast_cons₂, sumLen_cons, sumLen_cons]
      have := ih
      omega

theorem sumLen_dropLastBlank (cs : List (List Char)) :
    sumLen (dropLastBlank cs) ≤ sumLen cs := by
  unfold dropLastBlank
  rcases cs.getLast? with _ | l
  · exact le_refl _
  · simp only []
    split
    · exact sumLen_dropLast cs
    · exact le_refl _

theorem wrapGo_le : ∀ (fuel : Nat) (hasLines : Bool) (chunks : List (List Char)),
    ∀ l ∈ wrapGo 60 fuel hasLines chunks, l.length ≤ 60 := by
  intro fuel
  induction fuel with
  | zero => intro hasLines chunks l hl; simp [wrapGo] at hl
  | succ fuel ih =>
    intro hasLines chunks l hl
    cases chunks with
    | nil => simp [wrapGo] at hl
    | cons c0 crest =>
      simp only [wrapGo] at hl
      rcases List.mem_append.mp hl with hl | hl
      · set chunks1 := if hasLines && isBlank c0 then crest else c0 :: crest with hchunks1
        have hg : sumLen (greedyTake 60 0 chunks1).1 ≤ 60 := by
          have := greedyTake_le 60 chunks1 0 (by omega)
          omega
        have hcur : sumLen
            (match (greedyTake 60 0 chunks1).2 with
             | [] => greedyTake 60 0 chunks1
             | c :: rs =>
               if 60 < c.length then
                 ((greedyTake 60 0 chunks1).1 ++
                    (handleLongWord 60 (sumLen (greedyTake 60 0 chunks1).1) c rs).1,
                  (handleLongWord 60 (sumLen (greedyTake 60 0 chunks1).1) c rs).2)
               else greedyTake 60 0 chunks1).1 ≤ 60 := by
          rcases hr : (greedyTake 60 0 chunks1).2 with _ | ⟨c, rs⟩
          · simpa using hg
          · simp only []
            split
            · have := handleLongWord_le 60 (sumLen (greedyTake 60 0 chunks1).1) c rs hg
                (by omega)
              rw [sumLen_append]
              omega
            · simpa using hg
        split at hl
        · simp at hl
        · rcases List.mem_singleton.mp hl with rfl
          rw [List.length_flatten]
          calc (List.map List.length (dropLastBlank _)).sum
              = sumLen (dropLastBlank _) := rfl
            _ ≤ _ := sumLen_dropLastBlank _
            _ ≤ 60 := hcur
      · exact ih _ _ l hl

theorem fill_lines_le : ∀ (cs : List Char) (l : List Char),
    l ∈ fill_lines 60 cs → l.length ≤ 60 := by
  intro cs l hl
  unfold fill_lines at hl
  rcases hw : wrapLines 60 cs with _ | ⟨a, rest⟩ <;> rw [hw] at hl <;> dsimp only at hl
  · rcases List.mem_singleton.mp hl with rfl; simp
  · rw [← hw] at hl
    unfold wrapLines at hl
    exact wrapGo_le _ _ _ l hl

theorem surviving_sublist (ign : List String) (entries : List (String × FSNode)) :
    (surviving ign entries).Sublist (List.insertionSort nameLe entries) := by
  unfold surviving
  split
  · exact List.Sublist.refl _
  · exact List.filter_sublist _

theorem surviving_sorted (ign : List String) (entries : List (String × FSNode))
    (hnd : (entries.map Prod.fst).Nodup) :
    List.Pairwise (fun a b : String × FSNode => charListLt a.1.data b.1.data = true)
      (surviving ign entries) := by
  have hsorted : List.Sorted nameLe (List.insertionSort nameLe entries) :=
    List.sorted_insertionSort nameLe entries
  have hsub := surviving_sublist ign entries
  have hp1 : List.Pairwise nameLe (surviving ign entries) :=
    List.Pairwise.sublist hsub hsorted
  have hnodsort : ((List.insertionSort nameLe entries).map Prod.fst).Nodup :=
    (((List.perm_insertionSort nameLe entries).map Prod.fst).nodup_iff).mpr hnd
  have hnodsurv : ((surviving ign entries).map Prod.fst).Nodup :=
    hnodsort.sublist (hsub.map Prod.fst)
  have hneq : List.Pairwise (fun a b : String × FSNode => a.1 ≠ b.1) (surviving ign entries) :=
    List.pairwise_map.mp hnodsurv
  exact (hp1.and hneq).imp
    (fun h => charListLe_ne_lt _ _ h.1 (fun hd => h.2 (string_data_inj _ _ hd)))

theorem surviving_mem_iff (ign : List String) (entries : List (String × FSNode))
    (x : String × FSNode) (hx : x ∈ entries) :
    (x ∉ surviving ign entries ↔ ∃ pat ∈ ign, fnmatch x.1 pat = true) := by
  unfold surviving
  split
  · rename_i hemp
    rw [List.isEmpty_iff] at hemp
    subst hemp
    simp [(List.perm_insertionSort nameLe entries).mem_iff, hx]
  · simp only [List.mem_filter, (List.perm_insertionSort nameLe entries).mem_iff, hx, true_and]
    simp [List.any_eq_true]

theorem surviving_ignores (ign : List String) (name : String) (node : FSNode)
    (entries : List (String × FSNode))
    (hmatch : ∃ pat ∈ ign, fnmatch name pat = true) :
    surviving ign ((name, node) :: entries) = surviving ign entries := by
  have hne : ign.isEmpty = false := by
    rcases hmatch with ⟨pat, hp, _⟩
    cases ign with
    | nil => cases hp
    | cons a l => rfl
  unfold surviving
  rw [hne]
  simp only [Bool.false_eq_true, if_false, List.insertionSort]
  apply filter_orderedInsert
  rcases hmatch with ⟨pat, hp, hm⟩
  have : (ign.any fun pat => fnmatch name pat) = true :=
    List.any_eq_true.mpr ⟨pat, hp, hm⟩
  simp [this]

/-! ## The claims -/

/-- C1: for every directory level (with the filesystem's unique entry names),
the surviving entries are processed in strictly ascending name order, the
`is_last` flag computed by the loop is true exactly at the final index, and it
selects the terminal glyph `└── ` while all earlier entries get `├── `. -/
theorem C1_sorted_entries_single_last (ign : List String)
    (entries : List (String × FSNode)) (hnd : (entries.map Prod.fst).Nodup) :
    List.Pairwise (fun a b : String × FSNode => charListLt a.1.data b.1.data = true)
        (surviving ign entries) ∧
      (withLast (surviving ign entries)).map Prod.snd
        = (List.range (surviving ign entries).length).map
            (fun j => j == (surviving ign entries).length - 1) ∧
      branchGlyph true = "└── " ∧ branchGlyph false = "├── " :=
  ⟨surviving_sorted ign entries hnd, withLast_flags _, rfl, rfl⟩

/-- Witness for C1 at a concrete three-entry directory. -/
theorem C1_witness :
    List.Pairwise (fun a b : String × FSNode => charListLt a.1.data b.1.data = true)
        (surviving ["*.log"]
          [("b.txt", .file (.ok [])), ("a.txt", .file (.ok [])), ("c.log", .file (.ok []))]) ∧
      (withLast (surviving ["*.log"]
          [("b.txt", .file (.ok [])), ("a.txt", .file (.ok [])), ("c.log", .file (.ok []))])).map
          Prod.snd
        = (List.range (surviving ["*.log"]
            [("b.txt", .file (.ok [])), ("a.txt", .file (.ok [])),
             ("c.log", .file (.ok []))]).length).map
            (fun j => j == (surviving ["*.log"]
              [("b.txt", .file (.ok [])), ("a.txt", .file (.ok [])),
               ("c.log", .file (.ok []))]).length - 1) ∧
      branchGlyph true = "└── " ∧ branchGlyph false = "├── " :=
  C1_sorted_entries_single_last ["*.log"]
    [("b.txt", .file (.ok [])), ("a.txt", .file (.ok [])), ("c.log", .file (.ok []))]
    (by decide)

/-- C2: an entry is excluded exactly when its bare name matches at least one
glob pattern of the loaded rule set; `*` matches any run of characters
(including `/`), `?` matches exactly one character (including `/`), and
matching is case-sensitive. -/
theorem C2_exclusion_iff_glob_match :
    (∀ (ign : List String) (entries : List (String × FSNode)) (x : String × FSNode),
        x ∈ entries →
        (x ∉ surviving ign entries ↔ ∃ pat ∈ ign, fnmatch x.1 pat = true)) ∧
      (∀ s : String, fnmatch s "*" = true) ∧
      (∀ s : String, fnmatch s "?" = (s.data.length == 1)) ∧
      (fnmatch "A" "a" = false ∧ fnmatch "a" "A" = false ∧ fnmatch "Abc" "Abc" = true) ∧
      (fnmatch "a/b" "a?b" = true ∧ fnmatch "a/b" "*" = true ∧ fnmatch "/" "?" = true) := by
  refine ⟨fun ign entries x hx => surviving_mem_iff ign entries x hx, ?_, ?_, by decide, by decide⟩
  · intro s
    have hd : ("*" : String).data = ['*'] := rfl
    rw [fnmatch, hd]
    have hlen : (['*'] : List Char).length = 1 := rfl
    exact globMatch_star _ _ (by omega)
  · intro s
    have hd : ("?" : String).data = ['?'] := rfl
    rw [fnmatch, hd]
    have hlen : (['?'] : List Char).length = 1 := rfl
    exact globMatch_question _ _ (by omega)

/-- Witness for C2 at a concrete directory and rule set. -/
theorem C2_witness :
    (("debug.log", FSNode.file (Except.ok []))
        ∉ surviving ["*.log"]
            [("debug.log", FSNode.file (Except.ok [])), ("a.txt", FSNode.file (Except.ok []))]
      ↔ ∃ pat ∈ ["*.log"], fnmatch "debug.log" pat = true) :=
  C2_exclusion_iff_glob_match.1 ["*.log"]
    [("debug.log", FSNode.file (Except.ok [])), ("a.txt", FSNode.file (Except.ok []))]
    ("debug.log", FSNode.file (Except.ok [])) (List.mem_cons_self _ _)

/-- C3 as stated is false: `textwrap.fill` is called with its defaults, and
`break_long_words=True` splits a word longer than the width.  A summary that is
one 61-character word is printed on two lines, and no printed line is long
enough to hold that word whole. -/
theorem C3_counterexample :
    (print_tree (fun _ => Except.ok (String.mk (List.replicate 61 'a'))) [] 2
        (FSNode.dirOk [("f", FSNode.file (Except.ok []))]) "r" ""
      = (["└── f - " ++ String.mk (List.replicate 60 'a'), "      a"], none)) ∧
      fill_lines 60 (List.replicate 61 'a') = [List.replicate 60 'a', ['a']] ∧
      ((fill_lines 60 (List.replicate 61 'a')).all
        (fun l => decide (l.length < (List.replicate 61 'a').length))) = true :=
  ⟨by decide, by decide, by decide⟩

/-- C3 amended: the summary is wrapped to display width 60 by greedy
word-wrapping; a word longer than the space remaining on a line is split
(rather than kept whole), so that no output line ever exceeds 60 columns. -/
theorem C3_amended_width_bound :
    ∀ (cs : List Char), ∀ l ∈ fill_lines 60 cs, l.length ≤ 60 :=
  fun cs l hl => fill_lines_le cs l hl

/-- Witness for the amended C3 on the 61-character word. -/
theorem C3_amended_witness : (List.replicate 60 'a' : List Char).length ≤ 60 :=
  C3_amended_width_bound (List.replicate 61 'a') (List.replicate 60 'a') (by decide)

/-- C4 as stated is false: a continuation line is indented by the prefix plus
6 spaces (branch-glyph width 4 plus 2), while the summary text of the first
line begins at column 8 (after `└── `, a one-character name, and ` - `),
so continuation lines do not align under the summary text. -/
theorem C4_counterexample :
    (print_tree
        (fun _ => Except.ok (String.mk (List.replicate 30 'x' ++ (' ' :: List.replicate 30 'y'))))
        [] 2 (FSNode.dirOk [("a", FSNode.file (Except.ok []))]) "r" ""
      = (["└── a - " ++ String.mk (List.replicate 30 'x'),
          "      " ++ String.mk (List.replicate 30 'y')], none)) ∧
      countLeadingSpaces ("      " ++ String.mk (List.replicate 30 'y')).data = 6 ∧
      ("└── a - " : String).length = 8 ∧ ¬ (6 : Nat) = 8 :=
  ⟨by decide, by decide, by decide, by decide⟩

/-- C4 amended: the first summary line follows ` - ` on the filename line, and
every subsequent wrapped line is indented by the prefix plus spaces equal in
width to the branch glyph (4 characters) plus two more spaces, i.e. exactly
6 columns past the prefix, regardless of where the summary text begins. -/
theorem C4_amended_continuation_indent :
    (∀ pfx lst name s, fileRenderLines pfx (branchGlyph lst) name s
      = (pfx ++ (branchGlyph lst ++ (name ++ (" - "
            ++ String.mk ((fill_lines 60 s.data).headD [])))))
        :: (fill_lines 60 s.data).tail.map
            (fun l => pfx ++ (String.mk (List.replicate 4 ' ') ++ ("  " ++ String.mk l)))) ∧
      String.mk (List.replicate 4 ' ') ++ "  " = "      " := by
  constructor
  · intro pfx lst name s
    cases lst <;> rfl
  · decide

/-- C5: the prefix passed to the recursive call on a directory entry extends
the current prefix by exactly `"    "` when the entry is last and `"│   "`
otherwise, and this contribution is inherited by all deeper levels: every line
a recursive call prints starts with the prefix that call received. -/
theorem C5_prefix_composition :
    (childIndent true = "    " ∧ childIndent false = "│   ") ∧
      (∀ (summ : String → Except String String) (ign : List String) fuel node path pfx,
        ∀ l ∈ (print_tree summ ign fuel node path pfx).1, listStarts pfx.data l.data = true) ∧
      (∀ (summ : String → Except String String) (ign : List String) g path pfx name centries
          lst rest,
        ∃ tl, (processEntries summ (print_tree summ ign g) path pfx
                (((name, FSNode.dirOk centries), lst) :: rest)).1
          = (pfx ++ (branchGlyph lst ++ (name ++ "/")))
            :: ((print_tree summ ign g (FSNode.dirOk centries) (osJoin path name)
                  (pfx ++ childIndent lst)).1 ++ tl)) := by
  refine ⟨⟨rfl, rfl⟩, fun summ ign fuel node path pfx => print_tree_extend summ ign fuel node path pfx, ?_⟩
  intro summ ign g path pfx name centries lst rest
  rcases hs : (print_tree summ ign g (FSNode.dirOk centries) (osJoin path name)
      (pfx ++ childIndent lst)).2 with _ | e
  · exact ⟨(processEntries summ (print_tree summ ign g) path pfx rest).1, by
      simp only [processEntries, hs]⟩
  · exact ⟨[], by simp only [processEntries, hs, List.append_nil]⟩

/-- Witness for C5 on a concrete run with prefix `"p"`. -/
theorem C5_witness :
    listStarts ("p" : String).data ("p└── a - 要約" : String).data = true :=
  C5_prefix_composition.2.1 (fun _ => Except.ok "要約") [] 2
    (FSNode.dirOk [("a", FSNode.file (Except.ok []))]) "r" "p" "p└── a - 要約" (by decide)

/-- C6: a failed file read yields the bracketed read diagnostic, a failed
summarizer call yields the bracketed summarizer diagnostic — `summarize_file`
returns them as the summary text instead of propagating — and a run over a
tree whose listings all succeed (or fail only with `PermissionError`) never
raises, whatever the files and the summarizer do. -/
theorem C6_per_file_failures_nonfatal :
    (∀ (summ : String → Except String String) e,
        summarize_file summ (Except.error e) = "[読み取りエラー: " ++ e ++ "]") ∧
      (∀ (summ : String → Except String String) o c e, readFile o = Except.ok c →
        summ (promptFor c) = Except.error e →
        summarize_file summ o = "[要約エラー: " ++ e ++ "]") ∧
      (∀ (summ : String → Except String String) (ign : List String) fuel node path pfx,
        ListingsOkP node → isDirNode node = true →
        (print_tree summ ign fuel node path pfx).2 = none) := by
  refine ⟨fun summ e => rfl, ?_, ?_⟩
  · intro summ o c e h1 h2
    simp only [summarize_file, h1, h2]
  · intro summ ign fuel node path pfx h1 h2
    exact print_tree_no_raise summ ign fuel node path pfx h1 h2

/-- Witness for C6: a file whose read fails, a summarizer that fails, and a
run over a tree containing such a file that still raises nothing. -/
theorem C6_witness :
    summarize_file (fun _ => Except.ok "要約") (Except.error "denied")
        = "[読み取りエラー: " ++ "denied" ++ "]" ∧
      summarize_file (fun _ => Except.error "boom") (Except.ok [])
        = "[要約エラー: " ++ "boom" ++ "]" ∧
      (print_tree (fun _ => Except.error "boom") [] 2
        (FSNode.dirOk [("a", FSNode.file (Except.error "denied")),
                       ("b", FSNode.file (Except.ok []))]) "r" "").2 = none :=
  ⟨C6_per_file_failures_nonfatal.1 _ "denied",
   C6_per_file_failures_nonfatal.2.1 _ (Except.ok []) "" "boom" rfl rfl,
   C6_per_file_failures_nonfatal.2.2 _ [] 2 _ "r" ""
     (ListingsOkP.dir _ (by
        intro p hp
        rcases List.mem_cons.mp hp with rfl | hp
        · exact ListingsOkP.file _
        · rcases List.mem_singleton.mp hp with rfl
          exact ListingsOkP.file _)) rfl⟩

/-- C7: a directory whose listing raises `PermissionError` produces exactly one
diagnostic line, prefixed with the prefix that call received, and returns
without raising; in the parent's loop the following siblings are still
processed. -/
theorem C7_permission_error_single_diagnostic :
    (∀ (summ : String → Except String String) (ign : List String) fuel path pfx,
        print_tree summ ign (fuel + 1) FSNode.dirPermissionError path pfx
          = ([pfx ++ ("[アクセス権限なし: " ++ (path ++ "]"))], none)) ∧
      (∀ (summ : String → Except String String) (ign : List String) g path pfx name lst rest,
        processEntries summ (print_tree summ ign (g + 1)) path pfx
            (((name, FSNode.dirPermissionError), lst) :: rest)
          = ((pfx ++ (branchGlyph lst ++ (name ++ "/")))
              :: ((pfx ++ childIndent lst) ++ ("[アクセス権限なし: "
                    ++ (osJoin path name ++ "]")))
              :: (processEntries summ (print_tree summ ign (g + 1)) path pfx rest).1,
             (processEntries summ (print_tree summ ign (g + 1)) path pfx rest).2)) :=
  ⟨fun _ _ _ _ _ => rfl, fun _ _ _ _ _ _ _ _ => rfl⟩

/-- C8: an entry whose bare name matches a configured pattern leaves no trace:
the run over a directory containing it is the very run over the directory
without it, so nothing under the ignored entry is visited, summarized or
printed. -/
theorem C8_ignored_entry_and_subtree_absent
    (summ : String → Except String String) (ign : List String) (fuel : Nat)
    (name : String) (node : FSNode) (entries : List (String × FSNode)) (path pfx : String)
    (hmatch : ∃ pat ∈ ign, fnmatch name pat = true) :
    print_tree summ ign fuel (FSNode.dirOk ((name, node) :: entries)) path pfx
      = print_tree summ ign fuel (FSNode.dirOk entries) path pfx := by
  cases fuel with
  | zero => rfl
  | succ g =>
    simp only [print_tree]
    rw [surviving_ignores ign name node entries hmatch]

/-- Witness for C8: `*.log` hides `debug.log` and everything below it. -/
theorem C8_witness :
    print_tree (fun _ => Except.ok "要約") ["*.log"] 3
        (FSNode.dirOk [("debug.log",
            FSNode.dirOk [("secret.txt", FSNode.file (Except.ok [104]))]),
          ("a.txt", FSNode.file (Except.ok []))]) "r" ""
      = print_tree (fun _ => Except.ok "要約") ["*.log"] 3
          (FSNode.dirOk [("a.txt", FSNode.file (Except.ok []))]) "r" "" :=
  C8_ignored_entry_and_subtree_absent (fun _ => Except.ok "要約") ["*.log"] 3 "debug.log"
    (FSNode.dirOk [("secret.txt", FSNode.file (Except.ok [104]))])
    [("a.txt", FSNode.file (Except.ok []))] "r" ""
    ⟨"*.log", List.mem_singleton.mpr rfl, by decide⟩

/-- C9: a listing failure other than `PermissionError` is not caught:
`print_tree` on such a directory ends with the exception escaping; in the
parent's loop the directory's header line is printed, the exception
propagates, and the remaining siblings are not processed — unlike the
permission and per-file cases. -/
theorem C9_other_listing_error_uncaught :
    (∀ (summ : String → Except String String) (ign : List String) fuel e path pfx,
        print_tree summ ign (fuel + 1) (FSNode.dirOtherError e) path pfx = ([], some e)) ∧
      (∀ (summ : String → Except String String) (ign : List String) g e path pfx name lst rest,
        processEntries summ (print_tree summ ign (g + 1)) path pfx
            (((name, FSNode.dirOtherError e), lst) :: rest)
          = ([pfx ++ (branchGlyph lst ++ (name ++ "/"))], some e)) ∧
      (∀ (summ : String → Except String String) g e path pfx name,
        print_tree summ [] (g + 2) (FSNode.dirOk [(name, FSNode.dirOtherError e)]) path pfx
          = ([pfx ++ (branchGlyph true ++ (name ++ "/"))], some e)) :=
  ⟨fun _ _ _ _ _ _ => rfl, fun _ _ _ _ _ _ _ _ _ => rfl, fun _ _ _ _ _ _ => rfl⟩

/-- C10: files are read in UTF-8 text mode with strict decoding; when the
decoded prefix (up to 5000 characters) is not valid UTF-8 the error is caught,
the displayed summary is the bracketed read-error diagnostic, and the
summarizer is never invoked (the result does not depend on it). -/
theorem C10_invalid_utf8_caught (bytes : List Nat) (e : String)
    (hdec : readPrefixChars 5000 bytes = Except.error e) :
    (∀ summ : String → Except String String,
        summarize_file summ (Except.ok bytes) = "[読み取りエラー: " ++ e ++ "]") ∧
      (∀ s1 s2 : String → Except String String,
        summarize_file s1 (Except.ok bytes) = summarize_file s2 (Except.ok bytes)) := by
  have hrf : readFile (Except.ok bytes) = Except.error e := by
    simp only [readFile, hdec]
  exact ⟨fun summ => by simp only [summarize_file, hrf],
    fun s1 s2 => by simp only [summarize_file, hrf]⟩

/-- Witness for C10 on the one-byte file `0xFF`, which is not valid UTF-8. -/
theorem C10_witness :
    summarize_file (fun _ => Except.ok "要約") (Except.ok [255])
        = "[読み取りエラー: " ++ decodeErr ++ "]" ∧
      summarize_file (fun _ => Except.ok "要約") (Except.ok [255])
        = summarize_file (fun _ => Except.error "x") (Except.ok [255]) :=
  ⟨(C10_invalid_utf8_caught [255] decodeErr rfl).1 _,
   (C10_invalid_utf8_caught [255] decodeErr rfl).2 _ _⟩

end PST
